import Mathlib

set_option maxRecDepth 10000

/-!
Verification development for the effect-cypher AST core
(src/ast/CypherAST.ts, src/ast/Normalize.ts, src/src/ast compile source,
src/observability/ASTHash.ts).

Shallow embedding conventions:
* TypeScript tagged unions become inductive types; the string-literal
  operator unions (BinaryOperator, UnaryOperator, OrderBy directions)
  stay plain strings, as in the source.
* A JavaScript Record (object used as a map) is an insertion-ordered
  association list with pairwise-distinct keys; that key uniqueness is
  carried as a hypothesis where a theorem needs it.
* JSON.stringify is modelled by the json* functions below, reproducing
  the key insertion order of the object literals in the source; string
  values are assumed escape-free, and literal values are restricted to
  null, booleans, integers and strings (the only values the repository
  constructs).
* String.prototype.localeCompare and the default Array.prototype.sort
  comparison are both modelled as code-point lexicographic comparison
  (charsLe); Array.prototype.sort with a comparator is modelled as a
  stable insertion sort (stableSortBy), matching the ES2019 stability
  requirement.
* JavaScript 32-bit integer coercions in the DJB2 hash are modelled on
  the two's-complement bit pattern, i.e. arithmetic modulo 2^32.
-/

namespace EffectCypher

/-- Literal and parameter values: the subset of JavaScript values the
repository stores in an AST (JSON-representable scalars). -/
inductive JValue where
  | jnull
  | jbool (b : Bool)
  | jnum (n : Int)
  | jstr (s : String)
  deriving DecidableEq

/-- A Record of string to unknown, modelled as an insertion-ordered
association list. -/
abbrev Params := List (String × JValue)

/-- Expr from src/ast/CypherAST.ts: the recursive expression union. -/
inductive Expr where
  | Literal (value : JValue)
  | Property (node : String) (key : String)
  | Parameter (name : String)
  | BinaryOp (op : String) (left : Expr) (right : Expr)
  | UnaryOp (op : String) (expr : Expr)
  | Function (name : String) (args : List Expr)

/-- Relationship direction from src/ast/CypherAST.ts. -/
inductive Direction where
  | out
  | inDir
  | both
  deriving DecidableEq

/-- Pattern from src/ast/CypherAST.ts. -/
inductive Pattern where
  | Node (var : String) (labels : List String)
      (properties : Option (List (String × Expr)))
  | Relationship (var : Option String) (type : Option String)
      (direction : Direction) (properties : Option (List (String × Expr)))
  | Path (elements : List Pattern)

/-- ReturnExpr from src/ast/CypherAST.ts. -/
inductive ReturnExpr where
  | Variable (name : String) (als : Option String)
  | Expression (expr : Expr) (als : Option String)

/-- One Set-clause assignment record. -/
structure Assignment where
  var : String
  key : String
  value : Expr

/-- One OrderBy item; direction is the string "ASC" or "DESC". -/
structure OrderItem where
  expr : Expr
  direction : String

/-- Clause from src/ast/CypherAST.ts. -/
inductive Clause where
  | Match (pattern : Pattern) (opt : Bool)
  | Where (condition : Expr)
  | Return (expressions : List ReturnExpr)
  | Create (pattern : Pattern)
  | Delete (vars : List String) (detach : Bool)
  | Set (assignments : List Assignment)
  | OrderBy (items : List OrderItem)
  | Limit (count : Nat)
  | Skip (count : Nat)
  | With (expressions : List ReturnExpr)

/-- Query from src/ast/CypherAST.ts. -/
structure Query where
  clauses : List Clause
  params : Params

/-- CompileResult from the compile source file. -/
structure CompileResult where
  cypher : String
  params : Params
  deriving DecidableEq

/-- Code-point lexicographic comparison of character lists; models both
localeCompare (result at most 0) and the default sort order of
JavaScript strings for the ASCII strings this code compares. -/
def charsLe : List Char → List Char → Bool
  | [], _ => true
  | _ :: _, [] => false
  | a :: as, b :: bs =>
    if a.toNat < b.toNat then true
    else if b.toNat < a.toNat then false
    else charsLe as bs

/-- String comparison: a before-or-equal b. -/
def strLe (a b : String) : Bool := charsLe a.data b.data

/-- Stable insertion of x in front of the first element it compares
less-or-equal to. -/
def insertSorted (le : α → α → Bool) (x : α) : List α → List α
  | [] => [x]
  | y :: ys => if le x y then x :: y :: ys else y :: insertSorted le x ys

/-- Stable sort: the model of Array.prototype.sort with a consistent
comparator (le a b meaning the comparator result is at most 0). -/
def stableSortBy (le : α → α → Bool) : List α → List α
  | [] => []
  | x :: xs => insertSorted le x (stableSortBy le xs)

/-- JSON.stringify for the scalar values in JValue. -/
def jsonValue : JValue → String
  | .jnull => "null"
  | .jbool b => if b then "true" else "false"
  | .jnum n => toString n
  | .jstr s => "\"" ++ s ++ "\""

mutual

/-- JSON.stringify of an Expr, with the key order produced by the
object literals in src/ast/CypherAST.ts and src/ast/Normalize.ts. -/
def jsonExpr : Expr → String
  | .Literal v => "\x7b\"_tag\":\"Literal\",\"value\":" ++ jsonValue v ++ "\x7d"
  | .Property n k =>
      "\x7b\"_tag\":\"Property\",\"node\":\"" ++ n ++ "\",\"key\":\"" ++ k ++ "\"\x7d"
  | .Parameter n => "\x7b\"_tag\":\"Parameter\",\"name\":\"" ++ n ++ "\"\x7d"
  | .BinaryOp op l r =>
      "\x7b\"_tag\":\"BinaryOp\",\"op\":\"" ++ op ++ "\",\"left\":" ++ jsonExpr l ++
        ",\"right\":" ++ jsonExpr r ++ "\x7d"
  | .UnaryOp op e =>
      "\x7b\"_tag\":\"UnaryOp\",\"op\":\"" ++ op ++ "\",\"expr\":" ++ jsonExpr e ++ "\x7d"
  | .Function name args =>
      "\x7b\"_tag\":\"Function\",\"name\":\"" ++ name ++ "\",\"args\":[" ++
        String.intercalate "," (jsonExprList args) ++ "]\x7d"
termination_by structural e => e

/-- JSON.stringify of each element of an expression array. -/
def jsonExprList : List Expr → List String
  | [] => []
  | e :: es => jsonExpr e :: jsonExprList es
termination_by structural l => l

end

/-- compareExpr from src/ast/Normalize.ts, as the non-positive test:
compareExpr a b at most 0 exactly when exprLe a b. -/
def exprLe (a b : Expr) : Bool := strLe (jsonExpr a) (jsonExpr b)

/-- Operand collection inside flattenAssociativeOp: descend through
nested BinaryOp nodes with the same operator, stop anywhere else. -/
def collectOperands (op : String) : Expr → List Expr
  | .BinaryOp op2 l r =>
      if op2 = op then collectOperands op l ++ collectOperands op r
      else [.BinaryOp op2 l r]
  | e => [e]

/-- The reduce call in flattenAssociativeOp: fold the tail onto the
head, each step putting the accumulator on the left. -/
def foldBinaryChain (op : String) (h : Expr) (t : List Expr) : Expr :=
  t.foldl (fun acc curr => .BinaryOp op acc curr) h

/-- flattenAssociativeOp from src/ast/Normalize.ts. -/
def flattenAssociativeOp (op : String) (left right : Expr) : Option Expr :=
  let operands := collectOperands op (.BinaryOp op left right)
  if operands.length ≤ 2 then none
  else
    match stableSortBy exprLe operands with
    | [] => none
    | h :: t => some (foldBinaryChain op h t)

/-- The BinaryOp branch of normalizeExpr, applied to the already
normalized operands. The source first swaps when compareExpr left right
is positive (returning at once), and only otherwise tries flattening;
here the two branches of the comparison appear in the other order. -/
def normBin (op : String) (left right : Expr) : Expr :=
  if op = "AND" ∨ op = "OR" then
    if exprLe left right then
      match flattenAssociativeOp op left right with
      | some f => f
      | none => .BinaryOp op left right
    else .BinaryOp op right left
  else .BinaryOp op left right

/-- The UnaryOp branch of normalizeExpr, applied to the already
normalized operand: double negation elimination, guarded by the same
tag and operator tests as in the source. -/
def normUn (op : String) (n : Expr) : Expr :=
  match n with
  | .UnaryOp op2 inner => if op = "NOT" ∧ op2 = "NOT" then inner else .UnaryOp op n
  | _ => .UnaryOp op n

mutual

/-- normalizeExpr from src/ast/Normalize.ts. -/
def normalizeExpr : Expr → Expr
  | .Literal v => .Literal v
  | .Property n k => .Property n k
  | .Parameter n => .Parameter n
  | .BinaryOp op l r => normBin op (normalizeExpr l) (normalizeExpr r)
  | .UnaryOp op e => normUn op (normalizeExpr e)
  | .Function name args => .Function name (normalizeExprList args)
termination_by structural e => e

/-- Elementwise normalization of an expression array. -/
def normalizeExprList : List Expr → List Expr
  | [] => []
  | e :: es => normalizeExpr e :: normalizeExprList es
termination_by structural l => l

end

/-- Key comparison used for property-map sorting (localeCompare of the
keys). -/
def entryLe (a b : String × Expr) : Bool := strLe a.1 b.1

/-- Normalization of a properties record: values normalized, entries
re-sorted by key. -/
def normalizeProps (ps : List (String × Expr)) : List (String × Expr) :=
  stableSortBy entryLe (ps.map (fun e => (e.1, normalizeExpr e.2)))

mutual

/-- normalizePattern from src/ast/Normalize.ts. -/
def normalizePattern : Pattern → Pattern
  | .Node v ls ps =>
      .Node v (stableSortBy strLe ls) (ps.map normalizeProps)
  | .Relationship v t d ps =>
      .Relationship v t d (ps.map normalizeProps)
  | .Path es => .Path (normalizePatternList es)
termination_by structural p => p

/-- Elementwise normalization of path elements, order preserved. -/
def normalizePatternList : List Pattern → List Pattern
  | [] => []
  | p :: ps => normalizePattern p :: normalizePatternList ps
termination_by structural l => l

end

/-- normalizeReturnExpr from src/ast/Normalize.ts. -/
def normalizeReturnExpr : ReturnExpr → ReturnExpr
  | .Expression e a => .Expression (normalizeExpr e) a
  | r => r

/-- Sort key of a Set assignment: variable dot key. -/
def assignmentKey (a : Assignment) : String := a.var ++ "." ++ a.key

/-- Comparator for Set assignments (localeCompare of the joined keys). -/
def assignmentLe (a b : Assignment) : Bool := strLe (assignmentKey a) (assignmentKey b)

/-- normalizeClause from src/ast/Normalize.ts. -/
def normalizeClause : Clause → Clause
  | .Match p o => .Match (normalizePattern p) o
  | .Where c => .Where (normalizeExpr c)
  | .Return es => .Return (es.map normalizeReturnExpr)
  | .Create p => .Create (normalizePattern p)
  | .Set asgs =>
      .Set (stableSortBy assignmentLe
        (asgs.map (fun a => ⟨a.var, a.key, normalizeExpr a.value⟩)))
  | .OrderBy items => .OrderBy (items.map (fun i => ⟨normalizeExpr i.expr, i.direction⟩))
  | .With es => .With (es.map normalizeReturnExpr)
  | c => c

/-- The clause-order table inside compareClausesByOrder. -/
def clauseRank : Clause → Nat
  | .Match _ _ => 1
  | .Where _ => 2
  | .Create _ => 3
  | .Delete _ _ => 4
  | .Set _ => 5
  | .With _ => 6
  | .Return _ => 7
  | .OrderBy _ => 8
  | .Skip _ => 9
  | .Limit _ => 10

/-- compareClausesByOrder as the non-positive test: the rank difference
is at most 0 exactly when the ranks are ordered. -/
def clauseLe (a b : Clause) : Bool := decide (clauseRank a ≤ clauseRank b)

/-- normalizeClauses from src/ast/Normalize.ts. -/
def normalizeClauses (clauses : List Clause) : List Clause :=
  stableSortBy clauseLe (clauses.map normalizeClause)

/-- Key comparator for the parameter record. -/
def paramLe (a b : String × JValue) : Bool := strLe a.1 b.1

/-- sortParamsStable from src/ast/Normalize.ts: rebuild the record with
its keys in ascending default-sort order. -/
def sortParamsStable (params : Params) : Params :=
  stableSortBy paramLe params

/-- normalize from src/ast/Normalize.ts. -/
def normalize (q : Query) : Query :=
  { clauses := normalizeClauses q.clauses
    params := sortParamsStable q.params }

/-- The string tag of a clause, the _tag discriminant in the source. -/
def clauseTag : Clause → String
  | .Match _ _ => "Match"
  | .Where _ => "Where"
  | .Return _ => "Return"
  | .Create _ => "Create"
  | .Delete _ _ => "Delete"
  | .Set _ => "Set"
  | .OrderBy _ => "OrderBy"
  | .Limit _ => "Limit"
  | .Skip _ => "Skip"
  | .With _ => "With"

mutual

/-- compileExpr from the compile source file. -/
def compileExpr : Expr → String
  | .Literal v => jsonValue v
  | .Property n k => n ++ "." ++ k
  | .Parameter n => "$" ++ n
  | .BinaryOp op l r => compileExpr l ++ " " ++ op ++ " " ++ compileExpr r
  | .UnaryOp op e =>
      if op = "NOT" then "NOT " ++ compileExpr e
      else if op = "IS NULL" ∨ op = "IS NOT NULL" then compileExpr e ++ " " ++ op
      else op ++ compileExpr e
  | .Function name args =>
      name ++ "(" ++ String.intercalate ", " (compileExprList args) ++ ")"
termination_by structural e => e

/-- Compilation of each element of an expression array. -/
def compileExprList : List Expr → List String
  | [] => []
  | e :: es => compileExpr e :: compileExprList es
termination_by structural l => l

end

/-- Rendering of one properties entry inside a pattern. -/
def compilePropEntry (e : String × Expr) : String :=
  e.1 ++ ": " ++ compileExpr e.2

/-- Rendering of an optional properties record inside a pattern. -/
def compileProps : Option (List (String × Expr)) → String
  | none => ""
  | some ps => " \x7b" ++ String.intercalate ", " (ps.map compilePropEntry) ++ "\x7d"

/-- The direction strings of the source union. -/
def directionString : Direction → String
  | .out => "out"
  | .inDir => "in"
  | .both => "both"

mutual

/-- compilePattern from the compile source file. -/
def compilePattern : Pattern → String
  | .Node v ls ps =>
      let labels := if ls.length > 0 then ":" ++ String.intercalate ":" ls else ""
      "(" ++ v ++ labels ++ compileProps ps ++ ")"
  | .Relationship v t d ps =>
      let vs := v.getD ""
      let ts := match t with | some ty => ":" ++ ty | none => ""
      let rel := "[" ++ vs ++ ts ++ compileProps ps ++ "]"
      match d with
      | .out => "-" ++ rel ++ "->"
      | .inDir => "<-" ++ rel ++ "-"
      | .both => "-" ++ rel ++ "-"
  | .Path es => String.join (compilePatternList es)
termination_by structural p => p

/-- Concatenated rendering of path elements, no separator. -/
def compilePatternList : List Pattern → List String
  | [] => []
  | p :: ps => compilePattern p :: compilePatternList ps
termination_by structural l => l

end

/-- compileReturnExpr from the compile source file. -/
def compileReturnExpr : ReturnExpr → String
  | .Variable n (some a) => n ++ " AS " ++ a
  | .Variable n none => n
  | .Expression e (some a) => compileExpr e ++ " AS " ++ a
  | .Expression e none => compileExpr e

/-- compileClause from the compile source file. -/
def compileClause : Clause → String
  | .Match p _ => "MATCH " ++ compilePattern p
  | .Where c => "WHERE " ++ compileExpr c
  | .Return es => "RETURN " ++ String.intercalate ", " (es.map compileReturnExpr)
  | .Create p => "CREATE " ++ compilePattern p
  | .Delete vs detach =>
      (if detach then "DETACH " else "") ++ "DELETE " ++ String.intercalate ", " vs
  | .Set asgs =>
      "SET " ++ String.intercalate ", "
        (asgs.map (fun a => a.var ++ "." ++ a.key ++ " = " ++ compileExpr a.value))
  | .OrderBy items =>
      "ORDER BY " ++ String.intercalate ", "
        (items.map (fun i => compileExpr i.expr ++ " " ++ i.direction))
  | .Limit n => "LIMIT " ++ toString n
  | .Skip n => "SKIP " ++ toString n
  | .With es => "WITH " ++ String.intercalate ", " (es.map compileReturnExpr)

/-- compile from the compile source file: join the clause renderings
with single spaces and pass the parameter record through unchanged. -/
def compile (q : Query) : CompileResult :=
  { cypher := String.intercalate " " (q.clauses.map compileClause)
    params := q.params }

/-- JSON.stringify of an optional string-valued key, rendered as a
trailing key-value fragment or nothing (absent keys are omitted). -/
def jsonOptStringField (key : String) : Option String → String
  | none => ""
  | some v => ",\"" ++ key ++ "\":\"" ++ v ++ "\""

/-- JSON.stringify of a properties record. -/
def jsonProps (ps : List (String × Expr)) : String :=
  "\x7b" ++
    String.intercalate "," (ps.map (fun e => "\"" ++ e.1 ++ "\":" ++ jsonExpr e.2)) ++
    "\x7d"

/-- JSON.stringify of a string array. -/
def jsonStringArray (ss : List String) : String :=
  "[" ++ String.intercalate "," (ss.map (fun s => "\"" ++ s ++ "\"")) ++ "]"

mutual

/-- JSON.stringify of a Pattern, with the key insertion order of the
node, relationship and path constructors in the source. -/
def jsonPattern : Pattern → String
  | .Node v ls ps =>
      "\x7b\"_tag\":\"Node\",\"variable\":\"" ++ v ++ "\",\"labels\":" ++
        jsonStringArray ls ++
        (match ps with
         | none => ""
         | some l => ",\"properties\":" ++ jsonProps l) ++ "\x7d"
  | .Relationship v t d ps =>
      "\x7b\"_tag\":\"Relationship\"" ++
        (match v with | none => "" | some s => ",\"variable\":\"" ++ s ++ "\"") ++
        (match t with | none => "" | some s => ",\"type\":\"" ++ s ++ "\"") ++
        ",\"direction\":\"" ++ directionString d ++ "\"" ++
        (match ps with
         | none => ""
         | some l => ",\"properties\":" ++ jsonProps l) ++ "\x7d"
  | .Path es =>
      "\x7b\"_tag\":\"Path\",\"elements\":[" ++
        String.intercalate "," (jsonPatternList es) ++ "]\x7d"
termination_by structural p => p

/-- JSON.stringify of each element of a pattern array. -/
def jsonPatternList : List Pattern → List String
  | [] => []
  | p :: ps => jsonPattern p :: jsonPatternList ps
termination_by structural l => l

end

/-- JSON.stringify of a ReturnExpr. -/
def jsonReturnExpr : ReturnExpr → String
  | .Variable n a =>
      "\x7b\"_tag\":\"Variable\",\"name\":\"" ++ n ++ "\"" ++
        jsonOptStringField "alias" a ++ "\x7d"
  | .Expression e a =>
      "\x7b\"_tag\":\"Expression\",\"expr\":" ++ jsonExpr e ++
        jsonOptStringField "alias" a ++ "\x7d"

/-- JSON.stringify of a Clause, with the key insertion order of the
clause constructors in the source. -/
def jsonClause : Clause → String
  | .Match p o =>
      "\x7b\"_tag\":\"Match\",\"pattern\":" ++ jsonPattern p ++ ",\"optional\":" ++
        (if o then "true" else "false") ++ "\x7d"
  | .Where c => "\x7b\"_tag\":\"Where\",\"condition\":" ++ jsonExpr c ++ "\x7d"
  | .Return es =>
      "\x7b\"_tag\":\"Return\",\"expressions\":[" ++
        String.intercalate "," (es.map jsonReturnExpr) ++ "]\x7d"
  | .Create p => "\x7b\"_tag\":\"Create\",\"pattern\":" ++ jsonPattern p ++ "\x7d"
  | .Delete vs detach =>
      "\x7b\"_tag\":\"Delete\",\"variables\":" ++ jsonStringArray vs ++
        ",\"detach\":" ++ (if detach then "true" else "false") ++ "\x7d"
  | .Set asgs =>
      "\x7b\"_tag\":\"Set\",\"assignments\":[" ++
        String.intercalate ","
          (asgs.map (fun a =>
            "\x7b\"variable\":\"" ++ a.var ++ "\",\"key\":\"" ++ a.key ++
              "\",\"value\":" ++ jsonExpr a.value ++ "\x7d")) ++ "]\x7d"
  | .OrderBy items =>
      "\x7b\"_tag\":\"OrderBy\",\"items\":[" ++
        String.intercalate ","
          (items.map (fun i =>
            "\x7b\"expr\":" ++ jsonExpr i.expr ++ ",\"direction\":\"" ++
              i.direction ++ "\"\x7d")) ++ "]\x7d"
  | .Limit n => "\x7b\"_tag\":\"Limit\",\"count\":" ++ toString n ++ "\x7d"
  | .Skip n => "\x7b\"_tag\":\"Skip\",\"count\":" ++ toString n ++ "\x7d"
  | .With es =>
      "\x7b\"_tag\":\"With\",\"expressions\":[" ++
        String.intercalate "," (es.map jsonReturnExpr) ++ "]\x7d"

/-- JSON.stringify of the parameter record. -/
def jsonParams (ps : Params) : String :=
  "\x7b" ++
    String.intercalate "," (ps.map (fun e => "\"" ++ e.1 ++ "\":" ++ jsonValue e.2)) ++
    "\x7d"

/-- JSON.stringify of a Query (the object normalize returns: clauses
first, then params). -/
def jsonQuery (q : Query) : String :=
  "\x7b\"clauses\":[" ++ String.intercalate "," (q.clauses.map jsonClause) ++
    "],\"params\":" ++ jsonParams q.params ++ "\x7d"

/-- One step of the DJB2 loop in simpleHash: multiply the 32-bit hash
pattern by 33 and XOR the character code, on the two's-complement
pattern. -/
def hashStep (h : Nat) (c : Char) : Nat :=
  Nat.xor ((h * 33) % 4294967296) c.toNat

/-- Lowercase hexadecimal digit characters, as produced by the
JavaScript number toString with radix 16. -/
def hexDigitChar (d : Nat) : Char :=
  if d < 10 then Char.ofNat (48 + d) else Char.ofNat (87 + d)

/-- Little-endian hexadecimal digit list of n, with enough fuel; eight
digits of fuel cover every unsigned 32-bit value. -/
def toHexAux : Nat → Nat → List Char
  | _, 0 => []
  | 0, _ => []
  | fuel + 1, n => hexDigitChar (n % 16) :: toHexAux fuel (n / 16)

/-- The JavaScript toString with radix 16 of an unsigned 32-bit value. -/
def toHexString (n : Nat) : String :=
  if n = 0 then "0" else String.mk (toHexAux 8 n).reverse

/-- The padStart call in simpleHash: left-pad with zeros to 8 chars. -/
def padStart8 (s : String) : String :=
  String.mk (List.replicate (8 - s.length) '0' ++ s.data)

/-- simpleHash from src/observability/ASTHash.ts: DJB2 over the string,
masked to unsigned 32 bits, hex-encoded, zero-padded to 8 characters. -/
def simpleHash (s : String) : String :=
  padStart8 (toHexString ((s.data.foldl hashStep 5381) % 4294967296))

/-- astHash from src/observability/ASTHash.ts. -/
def astHash (q : Query) : String :=
  simpleHash (jsonQuery (normalize q))

/-- Modelled from the spec: the "right-folded binary tree" over a
sorted operand sequence that claim C3 describes (the spec sentence in
section 4.2, step 3). Written from the spec words, for comparison with
the tree the source actually builds. -/
def specRightFoldedTree (op : String) : Expr → List Expr → Expr
  | h, [] => h
  | h, e :: t => .BinaryOp op h (specRightFoldedTree op e t)

/-- Lowercase-hexadecimal character test, for the hash format claim. -/
def isHexLowerChar (c : Char) : Bool :=
  (48 ≤ c.toNat && c.toNat ≤ 57) || (97 ≤ c.toNat && c.toNat ≤ 102)

/-- Test for a logical-not node, the shape the double-negation rule
looks for. -/
def isNotNode : Expr → Bool
  | .UnaryOp op _ => op == "NOT"
  | _ => false

/-- Test for a binary node carrying the given operator; operands whose
normal form has this shape feed the associative flattening. -/
def sameOpBin (op : String) : Expr → Bool
  | .BinaryOp op2 _ _ => op2 == op
  | _ => false

mutual

/-- No UnaryOp NOT applied directly to another UnaryOp NOT anywhere in
the expression. -/
def notNotFree : Expr → Bool
  | .Literal _ => true
  | .Property _ _ => true
  | .Parameter _ => true
  | .BinaryOp _ l r => notNotFree l && notNotFree r
  | .UnaryOp op e => !(op == "NOT" && isNotNode e) && notNotFree e
  | .Function _ args => notNotFreeList args
termination_by structural e => e

/-- The double-negation-free test over an expression array. -/
def notNotFreeList : List Expr → Bool
  | [] => true
  | e :: es => notNotFree e && notNotFreeList es
termination_by structural l => l

end

/-- The double-negation-free test over a properties record. -/
def notNotFreeProps (ps : List (String × Expr)) : Bool :=
  ps.all (fun e => notNotFree e.2)

mutual

/-- The double-negation-free test over a pattern. -/
def notNotFreePattern : Pattern → Bool
  | .Node _ _ ps => (ps.map notNotFreeProps).getD true
  | .Relationship _ _ _ ps => (ps.map notNotFreeProps).getD true
  | .Path es => notNotFreePatternList es
termination_by structural p => p

/-- The double-negation-free test over a pattern array. -/
def notNotFreePatternList : List Pattern → Bool
  | [] => true
  | p :: ps => notNotFreePattern p && notNotFreePatternList ps
termination_by structural l => l

end

/-- The double-negation-free test over a return expression. -/
def notNotFreeReturnExpr : ReturnExpr → Bool
  | .Variable _ _ => true
  | .Expression e _ => notNotFree e

/-- The double-negation-free test over a clause. -/
def notNotFreeClause : Clause → Bool
  | .Match p _ => notNotFreePattern p
  | .Where c => notNotFree c
  | .Return es => es.all notNotFreeReturnExpr
  | .Create p => notNotFreePattern p
  | .Delete _ _ => true
  | .Set asgs => asgs.all (fun a => notNotFree a.value)
  | .OrderBy items => items.all (fun i => notNotFree i.expr)
  | .Limit _ => true
  | .Skip _ => true
  | .With es => es.all notNotFreeReturnExpr

/-- The double-negation-free test over a whole query. -/
def notNotFreeQuery (q : Query) : Bool :=
  q.clauses.all notNotFreeClause

/-- Shorthand for an integer literal expression. -/
def jint (n : Int) : Expr := .Literal (.jnum n)

/-- Failing input for idempotence: the conjunction 1 AND (2 AND 3). The
first pass swaps the operands without flattening; the second pass
flattens the swapped tree into a different shape. -/
def qC1 : Query :=
  ⟨[.Where (.BinaryOp "AND" (jint 1) (.BinaryOp "AND" (jint 2) (jint 3)))], []⟩

/-- Concrete commutativity counterexample, left version:
(1 AND 3) AND 2. -/
def qC2L : Query :=
  ⟨[.Where (.BinaryOp "AND" (.BinaryOp "AND" (jint 1) (jint 3)) (jint 2))], []⟩

/-- Concrete commutativity counterexample, right version:
2 AND (1 AND 3). -/
def qC2R : Query :=
  ⟨[.Where (.BinaryOp "AND" (jint 2) (.BinaryOp "AND" (jint 1) (jint 3)))], []⟩

/-- The scenario query of claim C7: Return p, Where p.age at least
the minAge parameter, Match p with label Person, params minAge 18. -/
def qScenario : Query :=
  ⟨[.Return [.Variable "p" none],
    .Where (.BinaryOp ">=" (.Property "p" "age") (.Parameter "minAge")),
    .Match (.Node "p" ["Person"] none) false],
   [("minAge", .jnum 18)]⟩

theorem charsLe_refl : ∀ l : List Char, charsLe l l = true
  | [] => rfl
  | _ :: as => by simp [charsLe, charsLe_refl as]

theorem charsLe_total : ∀ a b : List Char, charsLe a b = false → charsLe b a = true
  | [], _, h => by simp [charsLe] at h
  | _ :: _, [], _ => rfl
  | a :: as, b :: bs, h => by
    simp only [charsLe] at h ⊢
    rcases Nat.lt_trichotomy a.toNat b.toNat with hab | hab | hab
    · simp [hab] at h
    · simp only [hab, Nat.lt_irrefl, if_neg, if_false]
      simp only [hab, Nat.lt_irrefl, if_false] at h
      exact charsLe_total as bs h
    · simp [hab, Nat.lt_asymm hab]

theorem charsLe_trans :
    ∀ a b c : List Char, charsLe a b = true → charsLe b c = true → charsLe a c = true
  | [], _, _, _, _ => rfl
  | _ :: _, [], _, h, _ => by simp [charsLe] at h
  | _ :: _, _ :: _, [], _, h => by simp [charsLe] at h
  | a :: as, b :: bs, c :: cs, h1, h2 => by
    simp only [charsLe] at h1 h2 ⊢
    rcases Nat.lt_trichotomy a.toNat b.toNat with hab | hab | hab
    · rcases Nat.lt_trichotomy b.toNat c.toNat with hbc | hbc | hbc
      · simp [Nat.lt_trans hab hbc]
      · simp [hbc ▸ hab]
      · simp [Nat.lt_asymm hbc, hbc] at h2
    · rcases Nat.lt_trichotomy b.toNat c.toNat with hbc | hbc | hbc
      · simp [hab ▸ hbc]
      · have hac : a.toNat = c.toNat := hab.trans hbc
        simp only [hab, Nat.lt_irrefl, if_false] at h1
        simp only [hbc, Nat.lt_irrefl, if_false] at h2
        simp only [hac, Nat.lt_irrefl, if_false]
        exact charsLe_trans as bs cs h1 h2
      · simp [Nat.lt_asymm hbc, hbc] at h2
    · simp [Nat.lt_asymm hab, hab] at h1

theorem charsLe_antisymm :
    ∀ a b : List Char, charsLe a b = true → charsLe b a = true → a = b
  | [], [], _, _ => rfl
  | [], _ :: _, _, h => by simp [charsLe] at h
  | _ :: _, [], h, _ => by simp [charsLe] at h
  | a :: as, b :: bs, h1, h2 => by
    simp only [charsLe] at h1 h2
    rcases Nat.lt_trichotomy a.toNat b.toNat with hab | hab | hab
    · simp [Nat.lt_asymm hab, hab] at h2
    · have hc : a = b := by
        have h := hab
        unfold Char.toNat at h
        exact Char.eq_of_val_eq (UInt32.eq_of_toBitVec_eq (BitVec.eq_of_toNat_eq h))
      simp only [hab, Nat.lt_irrefl, if_false] at h1 h2
      rw [hc, charsLe_antisymm as bs h1 h2]
    · simp [Nat.lt_asymm hab, hab] at h1

theorem strLe_refl (s : String) : strLe s s = true := charsLe_refl _

theorem strLe_total {a b : String} (h : strLe a b = false) : strLe b a = true :=
  charsLe_total _ _ h

theorem strLe_trans {a b c : String} (h1 : strLe a b = true) (h2 : strLe b c = true) :
    strLe a c = true :=
  charsLe_trans _ _ _ h1 h2

theorem strLe_antisymm {a b : String} (h1 : strLe a b = true) (h2 : strLe b a = true) :
    a = b := by
  have h := charsLe_antisymm _ _ h1 h2
  cases a; cases b; exact congrArg String.mk h

theorem insertSorted_perm (le : α → α → Bool) (x : α) :
    ∀ l : List α, (insertSorted le x l).Perm (x :: l)
  | [] => List.Perm.refl _
  | y :: ys => by
    simp only [insertSorted]
    by_cases h : le x y = true
    · simp [h]
    · simp only [h, if_false]
      exact ((insertSorted_perm le x ys).cons y).trans (List.Perm.swap x y ys)

theorem stableSortBy_perm (le : α → α → Bool) :
    ∀ l : List α, (stableSortBy le l).Perm l
  | [] => List.Perm.refl _
  | x :: xs => by
    simp only [stableSortBy]
    exact (insertSorted_perm le x (stableSortBy le xs)).trans
      ((stableSortBy_perm le xs).cons x)

theorem insertSorted_pairwise (le : α → α → Bool)
    (total : ∀ a b, le a b = false → le b a = true)
    (trans : ∀ a b c, le a b = true → le b c = true → le a c = true)
    (x : α) : ∀ l : List α, l.Pairwise (fun a b => le a b = true) →
      (insertSorted le x l).Pairwise (fun a b => le a b = true)
  | [], _ => List.pairwise_singleton _ _
  | y :: ys, hp => by
    rcases List.pairwise_cons.mp hp with ⟨hy, hys⟩
    simp only [insertSorted]
    by_cases h : le x y = true
    · rw [if_pos h]
      refine List.pairwise_cons.mpr ⟨?_, hp⟩
      intro z hz
      rcases List.mem_cons.mp hz with rfl | hz
      · exact h
      · exact trans x y z h (hy z hz)
    · rw [if_neg h]
      refine List.pairwise_cons.mpr ⟨?_, insertSorted_pairwise le total trans x ys hys⟩
      intro z hz
      rcases List.mem_cons.mp ((insertSorted_perm le x ys).mem_iff.mp hz) with hzx | hz
      · rw [hzx]
        exact total x y (Bool.eq_false_iff.mpr h)
      · exact hy z hz

theorem stableSortBy_pairwise (le : α → α → Bool)
    (total : ∀ a b, le a b = false → le b a = true)
    (trans : ∀ a b c, le a b = true → le b c = true → le a c = true) :
    ∀ l : List α, (stableSortBy le l).Pairwise (fun a b => le a b = true)
  | [] => List.Pairwise.nil
  | x :: xs => by
    simp only [stableSortBy]
    exact insertSorted_pairwise le total trans x _
      (stableSortBy_pairwise le total trans xs)

theorem insertSorted_filter (le : α → α → Bool) (p : α → Bool) (x : α)
    (hx : ∀ b, p x = true → p b = true → le x b = true) :
    ∀ l : List α, (insertSorted le x l).filter p =
      if p x then x :: l.filter p else l.filter p
  | [] => by
    cases hpx : p x <;> simp [insertSorted, List.filter_cons, hpx]
  | y :: ys => by
    simp only [insertSorted]
    by_cases hle : le x y = true
    · rw [if_pos hle]
      cases hpx : p x <;> simp [List.filter_cons, hpx]
    · rw [if_neg hle]
      simp only [List.filter_cons, insertSorted_filter le p x hx ys]
      cases hpx : p x with
      | false => simp
      | true =>
        have hpy : p y = false := by
          cases hpy : p y with
          | false => rfl
          | true => exact absurd (hx y hpx hpy) hle
        simp [hpy]

theorem stableSortBy_filter (le : α → α → Bool) (p : α → Bool)
    (hp : ∀ a b, p a = true → p b = true → le a b = true) :
    ∀ l : List α, (stableSortBy le l).filter p = l.filter p
  | [] => rfl
  | x :: xs => by
    simp only [stableSortBy]
    rw [insertSorted_filter le p x (fun b => hp x b)]
    rw [stableSortBy_filter le p hp xs]
    cases hpx : p x <;> simp [List.filter_cons, hpx]

theorem clauseTag_normalizeClause (c : Clause) :
    clauseTag (normalizeClause c) = clauseTag c := by
  cases c <;> rfl

theorem clauseRank_eq_of_tag_eq {a b : Clause} (h : clauseTag a = clauseTag b) :
    clauseRank a = clauseRank b := by
  cases a <;> cases b <;> first | rfl | simp [clauseTag] at h

theorem clauseLe_total (a b : Clause) (h : clauseLe a b = false) : clauseLe b a = true := by
  simp only [clauseLe, decide_eq_false_iff_not, Nat.not_le] at h
  simp only [clauseLe, decide_eq_true_eq]
  omega

theorem clauseLe_trans (a b c : Clause) (h1 : clauseLe a b = true)
    (h2 : clauseLe b c = true) : clauseLe a c = true := by
  simp only [clauseLe, decide_eq_true_eq] at h1 h2 ⊢
  omega

/-- C1: normalize is claimed idempotent; the code is not. At the query
whose Where condition is the conjunction 1 AND (2 AND 3), the first
normalization swaps the operands (returning before the flattening
step), while the second normalization flattens the swapped tree into a
differently shaped conjunction, so normalizing twice differs from
normalizing once. -/
theorem normalize_not_idempotent_on_qC1 : normalize (normalize qC1) ≠ normalize qC1 :=
  fun h => absurd (congrArg jsonQuery h) (by decide)

/-- C5: the normalized clause list is sorted by the fixed class order
Match, Where, Create, Delete, Set, With, Return, OrderBy, Skip, Limit
(the rank table of compareClausesByOrder), and clauses of one class
keep their relative input order: filtering the output by a tag equals
filtering the (elementwise normalized) input by that tag. -/
theorem normalize_clause_order (q : Query) :
    ((normalize q).clauses.Pairwise fun a b => clauseRank a ≤ clauseRank b) ∧
    ∀ t : String,
      (normalize q).clauses.filter (fun c => clauseTag c == t) =
        (q.clauses.map normalizeClause).filter (fun c => clauseTag c == t) := by
  constructor
  · have h := stableSortBy_pairwise clauseLe clauseLe_total clauseLe_trans
      (q.clauses.map normalizeClause)
    exact h.imp fun hab => by
      simpa only [clauseLe, decide_eq_true_eq] using hab
  · intro t
    exact stableSortBy_filter clauseLe (fun c => clauseTag c == t)
      (fun a b ha hb => by
        simp only [beq_iff_eq] at ha hb
        simp [clauseLe, clauseRank_eq_of_tag_eq (ha.trans hb.symm)]) _

/-- C9: compile renders the clauses in exactly their list order, one
template each joined by single spaces, and passes the parameter record
through unchanged. -/
theorem compile_is_plain_rendering (q : Query) :
    (compile q).cypher = String.intercalate " " (q.clauses.map compileClause) ∧
    (compile q).params = q.params :=
  ⟨rfl, rfl⟩

/-- C10: normalization preserves the number of clauses and the multiset
of clause tags: the output length equals the input length and every tag
occurs equally often before and after. -/
theorem normalize_preserves_clause_multiset (q : Query) :
    (normalize q).clauses.length = q.clauses.length ∧
    ∀ t : String,
      (normalize q).clauses.countP (fun c => clauseTag c == t) =
        q.clauses.countP (fun c => clauseTag c == t) := by
  have hperm : (normalize q).clauses.Perm (q.clauses.map normalizeClause) :=
    stableSortBy_perm clauseLe _
  constructor
  · rw [hperm.length_eq, List.length_map]
  · intro t
    rw [hperm.countP_eq, List.countP_map]
    have hf : ((fun c => clauseTag c == t) ∘ normalizeClause) =
        (fun c => clauseTag c == t) := by
      funext c
      simp [Function.comp, clauseTag_normalizeClause]
    rw [hf]

/-- C7: the scenario query with clauses Return, Where, Match is
reordered by normalize to Match, Where, Return, and compiling the
normalized query yields exactly the expected Cypher text and the
untouched parameter record. -/
theorem scenario_normalize_compile :
    (normalize qScenario).clauses.map clauseTag = ["Match", "Where", "Return"] ∧
    compile (normalize qScenario) =
      ⟨"MATCH (p:Person) WHERE p.age >= $minAge RETURN p", [("minAge", JValue.jnum 18)]⟩ :=
  ⟨by decide, by decide⟩

theorem notNotFreeList_eq_all : ∀ l : List Expr, notNotFreeList l = l.all notNotFree
  | [] => rfl
  | e :: es => by simp [notNotFreeList, List.all_cons, notNotFreeList_eq_all es]

theorem normalizeExprList_eq_map : ∀ l : List Expr, normalizeExprList l = l.map normalizeExpr
  | [] => rfl
  | e :: es => by simp [normalizeExprList, normalizeExprList_eq_map es]

theorem collectOperands_free (op : String) :
    ∀ e : Expr, notNotFree e = true → ∀ x ∈ collectOperands op e, notNotFree x = true
  | .BinaryOp op2 l r, h, x, hx => by
    simp only [collectOperands] at hx
    by_cases hop : op2 = op
    · rw [if_pos hop] at hx
      simp only [notNotFree, Bool.and_eq_true] at h
      rcases List.mem_append.mp hx with h1 | h1
      · exact collectOperands_free op l h.1 x h1
      · exact collectOperands_free op r h.2 x h1
    · rw [if_neg hop] at hx
      rcases List.mem_singleton.mp hx with rfl
      exact h
  | .Literal v, h, x, hx => by
    rcases List.mem_singleton.mp hx with rfl; exact h
  | .Property n k, h, x, hx => by
    rcases List.mem_singleton.mp hx with rfl; exact h
  | .Parameter n, h, x, hx => by
    rcases List.mem_singleton.mp hx with rfl; exact h
  | .UnaryOp o e, h, x, hx => by
    rcases List.mem_singleton.mp hx with rfl; exact h
  | .Function n args, h, x, hx => by
    rcases List.mem_singleton.mp hx with rfl; exact h

theorem foldBinaryChain_free (op : String) :
    ∀ (t : List Expr) (h : Expr), notNotFree h = true →
      (∀ x ∈ t, notNotFree x = true) → notNotFree (foldBinaryChain op h t) = true
  | [], h, hh, _ => hh
  | e :: t, h, hh, ht => by
    have he : notNotFree e = true := ht e (List.mem_cons_self e t)
    have : foldBinaryChain op h (e :: t) = foldBinaryChain op (.BinaryOp op h e) t := rfl
    rw [this]
    refine foldBinaryChain_free op t _ ?_ fun x hx => ht x (List.mem_cons_of_mem e hx)
    simp [notNotFree, hh, he]

theorem flattenAssociativeOp_free {op : String} {l r f : Expr}
    (hf : flattenAssociativeOp op l r = some f)
    (hl : notNotFree l = true) (hr : notNotFree r = true) : notNotFree f = true := by
  unfold flattenAssociativeOp at hf
  set operands := collectOperands op (.BinaryOp op l r) with hops
  by_cases hlen : operands.length ≤ 2
  · simp [hlen] at hf
  · rw [if_neg hlen] at hf
    have hfree : ∀ x ∈ operands, notNotFree x = true := by
      intro x hx
      refine collectOperands_free op _ ?_ x (hops ▸ hx)
      simp [notNotFree, hl, hr]
    have hsortfree : ∀ x ∈ stableSortBy exprLe operands, notNotFree x = true :=
      fun x hx => hfree x ((stableSortBy_perm exprLe operands).mem_iff.mp hx)
    rcases hsort : stableSortBy exprLe operands with _ | ⟨h0, t⟩
    · rw [hsort] at hf; exact absurd hf (by simp)
    · rw [hsort] at hf
      simp only [Option.some.injEq] at hf
      subst hf
      exact foldBinaryChain_free op t h0
        (hsortfree h0 (hsort ▸ List.mem_cons_self h0 t))
        (fun x hx => hsortfree x (hsort ▸ List.mem_cons_of_mem h0 hx))

theorem normUn_eq_of_not_notNode {op : String} {n : Expr}
    (h : ¬(op = "NOT" ∧ isNotNode n = true)) : normUn op n = .UnaryOp op n := by
  cases n with
  | UnaryOp op2 inner =>
    have hc : ¬(op = "NOT" ∧ op2 = "NOT") := by
      intro hh
      exact h ⟨hh.1, by simp [isNotNode, hh.2]⟩
    simp [normUn, hc]
  | Literal v => rfl
  | Property a b => rfl
  | Parameter a => rfl
  | BinaryOp o a b => rfl
  | Function a b => rfl

theorem notNotFree_unaryOp {op : String} {n : Expr} :
    notNotFree (.UnaryOp op n) =
      (!(op == "NOT" && isNotNode n) && notNotFree n) := rfl

theorem normUn_free {op : String} {n : Expr} (h : notNotFree n = true) :
    notNotFree (normUn op n) = true := by
  by_cases hc : op = "NOT" ∧ isNotNode n = true
  · cases n with
    | UnaryOp op2 inner =>
      have hop2 : op2 = "NOT" := by
        have := hc.2
        simpa [isNotNode] using this
      simp only [normUn, if_pos (And.intro hc.1 hop2)]
      rw [notNotFree_unaryOp, Bool.and_eq_true] at h
      exact h.2
    | Literal v => simp [isNotNode] at hc
    | Property a b => simp [isNotNode] at hc
    | Parameter a => simp [isNotNode] at hc
    | BinaryOp o a b => simp [isNotNode] at hc
    | Function a b => simp [isNotNode] at hc
  · rw [normUn_eq_of_not_notNode hc, notNotFree_unaryOp, Bool.and_eq_true,
      Bool.not_eq_true', Bool.and_eq_false_iff]
    constructor
    · by_cases hop : op = "NOT"
      · right
        have : ¬ isNotNode n = true := fun hn => hc ⟨hop, hn⟩
        simpa using this
      · left
        simpa using hop
    · exact h

theorem normBin_free {op : String} {l r : Expr}
    (hl : notNotFree l = true) (hr : notNotFree r = true) :
    notNotFree (normBin op l r) = true := by
  unfold normBin
  by_cases hop : op = "AND" ∨ op = "OR"
  · rw [if_pos hop]
    by_cases hle : exprLe l r = true
    · rw [if_pos hle]
      rcases hflat : flattenAssociativeOp op l r with _ | f
      · simp [notNotFree, hl, hr]
      · exact flattenAssociativeOp_free hflat hl hr
    · rw [if_neg hle]
      simp [notNotFree, hl, hr]
  · rw [if_neg hop]
    simp [notNotFree, hl, hr]

mutual

theorem normalizeExpr_free : ∀ e : Expr, notNotFree (normalizeExpr e) = true
  | .Literal _ => rfl
  | .Property _ _ => rfl
  | .Parameter _ => rfl
  | .BinaryOp _ l r => normBin_free (normalizeExpr_free l) (normalizeExpr_free r)
  | .UnaryOp _ e => normUn_free (normalizeExpr_free e)
  | .Function _ args => normalizeExprList_free args
termination_by structural e => e

theorem normalizeExprList_free :
    ∀ l : List Expr, notNotFreeList (normalizeExprList l) = true
  | [] => rfl
  | e :: es => by
    simp only [normalizeExprList, notNotFreeList, Bool.and_eq_true]
    exact ⟨normalizeExpr_free e, normalizeExprList_free es⟩
termination_by structural l => l

end

theorem normUn_not_of_unary {n : Expr} : normUn "NOT" (.UnaryOp "NOT" n) = n := by
  simp [normUn]

theorem normUn_not_not {n : Expr} (h : notNotFree n = true) :
    normUn "NOT" (normUn "NOT" n) = n := by
  by_cases hn : isNotNode n = true
  · cases n with
    | UnaryOp op2 inner =>
      have hop2 : op2 = "NOT" := by simpa [isNotNode] using hn
      subst hop2
      rw [normUn_not_of_unary]
      rw [notNotFree_unaryOp, Bool.and_eq_true, Bool.not_eq_true',
        Bool.and_eq_false_iff] at h
      rcases h with ⟨hfst, _⟩
      rcases hfst with hfst | hfst
      · simp at hfst
      · exact normUn_eq_of_not_notNode fun hh => by
          rw [hh.2] at hfst
          exact absurd hfst (by simp)
    | Literal v => simp [isNotNode] at hn
    | Property a b => simp [isNotNode] at hn
    | Parameter a => simp [isNotNode] at hn
    | BinaryOp o a b => simp [isNotNode] at hn
    | Function a b => simp [isNotNode] at hn
  · rw [normUn_eq_of_not_notNode fun hh => hn hh.2, normUn_not_of_unary]

theorem normalizeExpr_not_not (e : Expr) :
    normalizeExpr (.UnaryOp "NOT" (.UnaryOp "NOT" e)) = normalizeExpr e :=
  normUn_not_not (normalizeExpr_free e)

theorem notNotFreeProps_normalizeProps (ps : List (String × Expr)) :
    notNotFreeProps (normalizeProps ps) = true := by
  simp only [notNotFreeProps, List.all_eq_true]
  intro x hx
  have hx2 := (stableSortBy_perm entryLe _).mem_iff.mp hx
  rcases List.mem_map.mp hx2 with ⟨y, _, rfl⟩
  exact normalizeExpr_free y.2

mutual

theorem normalizePattern_free : ∀ p : Pattern, notNotFreePattern (normalizePattern p) = true
  | .Node v ls ps => by
    cases ps with
    | none => rfl
    | some l =>
      simpa [normalizePattern, notNotFreePattern] using notNotFreeProps_normalizeProps l
  | .Relationship v t d ps => by
    cases ps with
    | none => rfl
    | some l =>
      simpa [normalizePattern, notNotFreePattern] using notNotFreeProps_normalizeProps l
  | .Path es => normalizePatternList_free es
termination_by structural p => p

theorem normalizePatternList_free :
    ∀ l : List Pattern, notNotFreePatternList (normalizePatternList l) = true
  | [] => rfl
  | p :: ps => by
    simp only [normalizePatternList, notNotFreePatternList, Bool.and_eq_true]
    exact ⟨normalizePattern_free p, normalizePatternList_free ps⟩
termination_by structural l => l

end

theorem normalizeReturnExpr_free (r : ReturnExpr) :
    notNotFreeReturnExpr (normalizeReturnExpr r) = true := by
  cases r with
  | Variable n a => rfl
  | Expression e a => exact normalizeExpr_free e

theorem normalizeClause_free (c : Clause) :
    notNotFreeClause (normalizeClause c) = true := by
  cases c with
  | Match p o => exact normalizePattern_free p
  | Where e => exact normalizeExpr_free e
  | Return es =>
    simp only [normalizeClause, notNotFreeClause, List.all_eq_true]
    intro x hx
    rcases List.mem_map.mp hx with ⟨y, _, rfl⟩
    exact normalizeReturnExpr_free y
  | Create p => exact normalizePattern_free p
  | Delete vs d => rfl
  | Set asgs =>
    simp only [normalizeClause, notNotFreeClause, List.all_eq_true]
    intro x hx
    have hx2 := (stableSortBy_perm assignmentLe _).mem_iff.mp hx
    rcases List.mem_map.mp hx2 with ⟨y, _, rfl⟩
    exact normalizeExpr_free y.value
  | OrderBy items =>
    simp only [normalizeClause, notNotFreeClause, List.all_eq_true]
    intro x hx
    rcases List.mem_map.mp hx with ⟨y, _, rfl⟩
    exact normalizeExpr_free y.expr
  | Limit n => rfl
  | Skip n => rfl
  | With es =>
    simp only [normalizeClause, notNotFreeClause, List.all_eq_true]
    intro x hx
    rcases List.mem_map.mp hx with ⟨y, _, rfl⟩
    exact normalizeReturnExpr_free y

/-- C4: normalizing a doubly negated expression gives the same result
as normalizing the expression itself, and no doubly negated subtree
(UnaryOp NOT directly over UnaryOp NOT) survives anywhere in a
normalized query. -/
theorem normalize_eliminates_double_negation :
    (∀ e : Expr, normalizeExpr (.UnaryOp "NOT" (.UnaryOp "NOT" e)) = normalizeExpr e) ∧
    ∀ q : Query, notNotFreeQuery (normalize q) = true := by
  refine ⟨normalizeExpr_not_not, ?_⟩
  intro q
  simp only [notNotFreeQuery, List.all_eq_true]
  intro c hc
  have hc2 := (stableSortBy_perm clauseLe _).mem_iff.mp hc
  rcases List.mem_map.mp hc2 with ⟨y, _, rfl⟩
  exact normalizeClause_free y

theorem flattenAssociativeOp_eq (op : String) (left right : Expr) :
    flattenAssociativeOp op left right =
      if 2 < (collectOperands op (.BinaryOp op left right)).length then
        match stableSortBy exprLe (collectOperands op (.BinaryOp op left right)) with
        | [] => none
        | h :: t => some (foldBinaryChain op h t)
      else none := by
  unfold flattenAssociativeOp
  by_cases hlen : (collectOperands op (.BinaryOp op left right)).length ≤ 2
  · rw [if_pos hlen, if_neg (by omega)]
  · rw [if_neg hlen, if_pos (by omega)]

/-- C3 counterexample: for the conjunction (1 AND 2) AND 3 the
flattening premises of the claim hold (three collected operands, no
pairwise swap), the leaves sort to 1, 2, 3, yet the rebuilt tree is not
the right-folded tree 1 AND (2 AND 3) over those sorted leaves -- the
source reduce builds the left-folded tree (1 AND 2) AND 3. -/
theorem flatten_not_right_folded :
    2 < (collectOperands "AND" (.BinaryOp "AND"
        (normalizeExpr (.BinaryOp "AND" (jint 1) (jint 2)))
        (normalizeExpr (jint 3)))).length ∧
    exprLe (normalizeExpr (.BinaryOp "AND" (jint 1) (jint 2)))
      (normalizeExpr (jint 3)) = true ∧
    (stableSortBy exprLe (collectOperands "AND" (.BinaryOp "AND"
        (normalizeExpr (.BinaryOp "AND" (jint 1) (jint 2)))
        (normalizeExpr (jint 3))))).map jsonExpr =
      [jsonExpr (jint 1), jsonExpr (jint 2), jsonExpr (jint 3)] ∧
    normalizeExpr (.BinaryOp "AND" (.BinaryOp "AND" (jint 1) (jint 2)) (jint 3)) ≠
      specRightFoldedTree "AND" (jint 1) [jint 2, jint 3] :=
  ⟨by decide, by decide, by decide,
    fun h => absurd (congrArg jsonExpr h) (by decide)⟩

/-- C3 amended: for an AND or OR node the source first normalizes both
operands; if the left one sorts strictly after the right one they are
only swapped (no restructuring, even when more than two operands could
be collected); otherwise, when more than two leaf operands are
collected (descent stopping at differently-tagged nodes or a different
operator), the node is rebuilt as the LEFT-folded binary tree over the
leaves sorted by the total expression order; with two or fewer
collected operands the node is left as the ordered pair. -/
theorem normalizeExpr_and_or_shape (op : String) (a b : Expr)
    (hop : op = "AND" ∨ op = "OR") :
    normalizeExpr (.BinaryOp op a b) =
      if exprLe (normalizeExpr a) (normalizeExpr b) then
        if 2 < (collectOperands op
            (.BinaryOp op (normalizeExpr a) (normalizeExpr b))).length then
          match stableSortBy exprLe (collectOperands op
              (.BinaryOp op (normalizeExpr a) (normalizeExpr b))) with
          | [] => .BinaryOp op (normalizeExpr a) (normalizeExpr b)
          | h :: t => foldBinaryChain op h t
        else .BinaryOp op (normalizeExpr a) (normalizeExpr b)
      else .BinaryOp op (normalizeExpr b) (normalizeExpr a) := by
  have h0 : normalizeExpr (.BinaryOp op a b) =
      normBin op (normalizeExpr a) (normalizeExpr b) := rfl
  rw [h0]
  unfold normBin
  rw [if_pos hop, flattenAssociativeOp_eq]
  by_cases hle : exprLe (normalizeExpr a) (normalizeExpr b) = true
  · rw [if_pos hle, if_pos hle]
    by_cases hlen : 2 < (collectOperands op
        (.BinaryOp op (normalizeExpr a) (normalizeExpr b))).length
    · rw [if_pos hlen, if_pos hlen]
      rcases stableSortBy exprLe (collectOperands op
          (.BinaryOp op (normalizeExpr a) (normalizeExpr b))) with _ | ⟨h1, t⟩
      · rfl
      · rfl
    · rw [if_neg hlen, if_neg hlen]
  · rw [if_neg hle, if_neg hle]

/-- C3 witness: the amended characterization applied at the concrete
input 2 AND 1 (two operands, swap branch). -/
theorem normalizeExpr_and_or_shape_witness :
    ("AND" = "AND" ∨ "AND" = "OR") ∧
    normalizeExpr (.BinaryOp "AND" (jint 2) (jint 1)) =
      (if exprLe (normalizeExpr (jint 2)) (normalizeExpr (jint 1)) then
        if 2 < (collectOperands "AND"
            (.BinaryOp "AND" (normalizeExpr (jint 2)) (normalizeExpr (jint 1)))).length then
          match stableSortBy exprLe (collectOperands "AND"
              (.BinaryOp "AND" (normalizeExpr (jint 2)) (normalizeExpr (jint 1)))) with
          | [] => .BinaryOp "AND" (normalizeExpr (jint 2)) (normalizeExpr (jint 1))
          | h :: t => foldBinaryChain "AND" h t
        else .BinaryOp "AND" (normalizeExpr (jint 2)) (normalizeExpr (jint 1))
      else .BinaryOp "AND" (normalizeExpr (jint 1)) (normalizeExpr (jint 2))) :=
  ⟨Or.inl rfl, normalizeExpr_and_or_shape "AND" (jint 2) (jint 1) (Or.inl rfl)⟩

theorem collectOperands_single {op : String} {e : Expr} (h : sameOpBin op e = false) :
    collectOperands op e = [e] := by
  cases e with
  | BinaryOp op2 l r =>
    have hne : ¬ op2 = op := by simpa [sameOpBin] using h
    simp [collectOperands, hne]
  | Literal v => rfl
  | Property a b => rfl
  | Parameter a => rfl
  | UnaryOp o x => rfl
  | Function n args => rfl

theorem flattenAssociativeOp_none {op : String} {l r : Expr}
    (hl : sameOpBin op l = false) (hr : sameOpBin op r = false) :
    flattenAssociativeOp op l r = none := by
  rw [flattenAssociativeOp_eq]
  have hc : collectOperands op (.BinaryOp op l r) = [l, r] := by
    simp [collectOperands, collectOperands_single hl, collectOperands_single hr]
  rw [hc]
  simp

theorem normBin_comm_json {op : String} {x y : Expr} (hop : op = "AND" ∨ op = "OR")
    (hx : sameOpBin op x = false) (hy : sameOpBin op y = false) :
    jsonExpr (normBin op x y) = jsonExpr (normBin op y x) := by
  unfold normBin
  rw [if_pos hop, if_pos hop]
  rw [flattenAssociativeOp_none hx hy, flattenAssociativeOp_none hy hx]
  by_cases h1 : exprLe x y = true
  · by_cases h2 : exprLe y x = true
    · rw [if_pos h1, if_pos h2]
      have hxy : jsonExpr x = jsonExpr y := strLe_antisymm h1 h2
      simp [jsonExpr, hxy]
    · rw [if_pos h1, if_neg h2]
  · have h2 : exprLe y x = true := strLe_total (Bool.eq_false_iff.mpr h1)
    rw [if_neg h1, if_pos h2]

/-- C2 counterexample: the queries whose Where conditions are
(1 AND 3) AND 2 and 2 AND (1 AND 3) differ only in commutative operand
order, yet normalize to different queries: the first is flattened to
(1 AND 2) AND 3 while the second is merely swapped to (1 AND 3) AND 2,
because the swap branch returns before the flattening step runs. -/
theorem normalize_not_commutative : normalize qC2L ≠ normalize qC2R :=
  fun h => absurd (congrArg jsonQuery h) (by decide)

/-- C2 amended: commutativity of AND and OR under normalize holds
whenever neither normalized operand is itself a binary node of the same
operator (so associative flattening collects exactly two operands), the
equality being equality of the serialized normal forms, which is the
comparison the spec and the repository tests use. -/
theorem normalize_commutative_for_simple_operands (op : String) (a b : Expr)
    (ps : Params) (hop : op = "AND" ∨ op = "OR")
    (ha : sameOpBin op (normalizeExpr a) = false)
    (hb : sameOpBin op (normalizeExpr b) = false) :
    jsonQuery (normalize ⟨[.Where (.BinaryOp op a b)], ps⟩) =
      jsonQuery (normalize ⟨[.Where (.BinaryOp op b a)], ps⟩) := by
  have hcore : jsonExpr (normalizeExpr (.BinaryOp op a b)) =
      jsonExpr (normalizeExpr (.BinaryOp op b a)) := by
    have h1 : normalizeExpr (.BinaryOp op a b) =
        normBin op (normalizeExpr a) (normalizeExpr b) := rfl
    have h2 : normalizeExpr (.BinaryOp op b a) =
        normBin op (normalizeExpr b) (normalizeExpr a) := rfl
    rw [h1, h2]
    exact normBin_comm_json hop ha hb
  simp [normalize, normalizeClauses, normalizeClause, stableSortBy, insertSorted,
    jsonQuery, jsonClause, hcore]

/-- C2 witness: the amended commutativity applied to the literals 2
and 1 under AND with an empty parameter record. -/
theorem normalize_commutative_witness :
    ("AND" = "AND" ∨ "AND" = "OR") ∧
    sameOpBin "AND" (normalizeExpr (jint 2)) = false ∧
    sameOpBin "AND" (normalizeExpr (jint 1)) = false ∧
    jsonQuery (normalize ⟨[.Where (.BinaryOp "AND" (jint 2) (jint 1))], []⟩) =
      jsonQuery (normalize ⟨[.Where (.BinaryOp "AND" (jint 1) (jint 2))], []⟩) :=
  ⟨Or.inl rfl, by decide, by decide,
    normalize_commutative_for_simple_operands "AND" (jint 2) (jint 1) []
      (Or.inl rfl) (by decide) (by decide)⟩

theorem paramLe_total (a b : String × JValue) (h : paramLe a b = false) :
    paramLe b a = true :=
  strLe_total h

theorem paramLe_trans (a b c : String × JValue) (h1 : paramLe a b = true)
    (h2 : paramLe b c = true) : paramLe a c = true :=
  strLe_trans h1 h2

theorem sorted_params_eq : ∀ l1 l2 : Params, l1.Perm l2 →
    l1.Pairwise (fun x y => paramLe x y = true) →
    l2.Pairwise (fun x y => paramLe x y = true) →
    (l1.map Prod.fst).Nodup → l1 = l2
  | [], l2, hp, _, _, _ => hp.nil_eq
  | a :: t1, [], hp, _, _, _ => absurd hp.symm.nil_eq (by simp)
  | a :: t1, b :: t2, hp, hs1, hs2, hn => by
    by_cases hab : a = b
    · subst hab
      have htail := sorted_params_eq t1 t2 hp.cons_inv
        (List.pairwise_cons.mp hs1).2 (List.pairwise_cons.mp hs2).2
        (List.nodup_cons.mp (by simpa using hn)).2
      rw [htail]
    · exfalso
      have hb1 : b ∈ t1 := by
        rcases List.mem_cons.mp (hp.symm.mem_iff.mp (List.mem_cons_self b t2)) with h | h
        · exact absurd h.symm hab
        · exact h
      have ha2 : a ∈ t2 := by
        rcases List.mem_cons.mp (hp.mem_iff.mp (List.mem_cons_self a t1)) with h | h
        · exact absurd h hab
        · exact h
      have h1 : paramLe a b = true := (List.pairwise_cons.mp hs1).1 b hb1
      have h2 : paramLe b a = true := (List.pairwise_cons.mp hs2).1 a ha2
      have hkey : a.1 = b.1 := strLe_antisymm h1 h2
      have hmem : a.1 ∈ t1.map Prod.fst := List.mem_map.mpr ⟨b, hb1, hkey.symm⟩
      exact (List.nodup_cons.mp (by simpa using hn)).1 hmem

theorem sortParamsStable_nodup_keys {p : Params}
    (hn : (p.map Prod.fst).Nodup) :
    ((sortParamsStable p).map Prod.fst).Nodup :=
  (((stableSortBy_perm paramLe p).map Prod.fst).nodup_iff).mpr hn

theorem sortParamsStable_eq_of_perm {p1 p2 : Params} (hperm : p1.Perm p2)
    (hn : (p1.map Prod.fst).Nodup) :
    sortParamsStable p1 = sortParamsStable p2 := by
  refine sorted_params_eq _ _ ?_ ?_ ?_ ?_
  · exact (stableSortBy_perm paramLe p1).trans
      (hperm.trans (stableSortBy_perm paramLe p2).symm)
  · exact stableSortBy_pairwise paramLe paramLe_total paramLe_trans p1
  · exact stableSortBy_pairwise paramLe paramLe_total paramLe_trans p2
  · exact sortParamsStable_nodup_keys hn

/-- C6: for two queries identical except for the insertion order of
their parameter record (same clauses, parameter entries a permutation
of each other, keys pairwise distinct as in any JavaScript object),
normalize produces literally identical parameter records whose keys are
in strictly ascending lexical order. -/
theorem normalize_param_order_independent (q1 q2 : Query)
    (_hc : q1.clauses = q2.clauses) (hperm : q1.params.Perm q2.params)
    (hn : (q1.params.map Prod.fst).Nodup) :
    (normalize q1).params = (normalize q2).params ∧
    (normalize q1).params.Pairwise (fun x y => strLe x.1 y.1 = true ∧ x.1 ≠ y.1) := by
  constructor
  · exact sortParamsStable_eq_of_perm hperm hn
  · have hs := stableSortBy_pairwise paramLe paramLe_total paramLe_trans q1.params
    have hnd := sortParamsStable_nodup_keys hn
    have hne : (sortParamsStable q1.params).Pairwise (fun x y => x.1 ≠ y.1) :=
      List.pairwise_map.mp hnd
    exact (hs.and hne).imp fun hab => ⟨hab.1, hab.2⟩

/-- C6 witness: the parameter-order independence applied to the
records with keys b, a given in the two insertion orders over identical
clauses. -/
theorem normalize_param_order_witness :
    (normalize ⟨[], [("b", .jnum 2), ("a", .jnum 1)]⟩).params =
      (normalize ⟨[], [("a", .jnum 1), ("b", .jnum 2)]⟩).params ∧
    (normalize ⟨[], [("b", .jnum 2), ("a", .jnum 1)]⟩).params.Pairwise
      (fun x y => strLe x.1 y.1 = true ∧ x.1 ≠ y.1) :=
  normalize_param_order_independent
    ⟨[], [("b", .jnum 2), ("a", .jnum 1)]⟩
    ⟨[], [("a", .jnum 1), ("b", .jnum 2)]⟩
    rfl (by decide) (by decide)

theorem toHexAux_length : ∀ fuel n : Nat, (toHexAux fuel n).length ≤ fuel
  | fuel, 0 => by cases fuel <;> simp [toHexAux]
  | 0, _ + 1 => by simp [toHexAux]
  | fuel + 1, n + 1 => by
    simp only [toHexAux, List.length_cons]
    exact Nat.succ_le_succ (toHexAux_length fuel ((n + 1) / 16))

theorem hexDigitChar_hex {d : Nat} (h : d < 16) :
    isHexLowerChar (hexDigitChar d) = true := by
  interval_cases d <;> decide

theorem toHexAux_hex : ∀ fuel n : Nat, ∀ c ∈ toHexAux fuel n, isHexLowerChar c = true
  | fuel, 0 => by cases fuel <;> simp [toHexAux]
  | 0, _ + 1 => by simp [toHexAux]
  | fuel + 1, n + 1 => by
    intro c hc
    simp only [toHexAux, List.mem_cons] at hc
    rcases hc with rfl | hc
    · exact hexDigitChar_hex (Nat.mod_lt _ (by norm_num))
    · exact toHexAux_hex fuel ((n + 1) / 16) c hc

theorem toHexString_length (n : Nat) : (toHexString n).length ≤ 8 := by
  unfold toHexString
  by_cases h : n = 0
  · rw [if_pos h]; decide
  · rw [if_neg h]
    show (toHexAux 8 n).reverse.length ≤ 8
    rw [List.length_reverse]
    exact toHexAux_length 8 n

theorem toHexString_hex (n : Nat) :
    ∀ c ∈ (toHexString n).data, isHexLowerChar c = true := by
  unfold toHexString
  by_cases h : n = 0
  · rw [if_pos h]
    intro c hc
    rcases List.mem_singleton.mp hc with rfl
    decide
  · rw [if_neg h]
    intro c hc
    exact toHexAux_hex 8 n c (List.mem_reverse.mp hc)

theorem simpleHash_format (s : String) :
    (simpleHash s).length = 8 ∧ (simpleHash s).data.all isHexLowerChar = true := by
  unfold simpleHash padStart8
  set t := toHexString ((s.data.foldl hashStep 5381) % 4294967296) with ht
  have hlen : t.length ≤ 8 := toHexString_length _
  constructor
  · show (List.replicate (8 - t.length) '0' ++ t.data).length = 8
    rw [List.length_append, List.length_replicate]
    have : t.data.length = t.length := rfl
    omega
  · rw [List.all_eq_true]
    intro c hc
    rcases List.mem_append.mp hc with hc | hc
    · rw [List.eq_of_mem_replicate hc]; decide
    · exact toHexString_hex _ c hc

/-- C8 counterexample: the queries whose Where conditions are
(1 AND 3) AND 2 and 2 AND (1 AND 3) differ only in commutative operand
order, yet hash differently, because normalize flattens one and merely
swaps the other. -/
theorem astHash_not_commutative_invariant : astHash qC2L ≠ astHash qC2R := by decide

/-- C8 amended: every astHash result is an 8-character lowercase
hexadecimal string, and astHash is invariant under parameter insertion
order (distinct keys) and under double negation of a Where condition;
invariance under commutative-operand order fails in general (it holds
only when no associative flattening is triggered asymmetrically). -/
theorem astHash_format_and_equivalences (q : Query) (cl : List Clause)
    (p1 p2 : Params) (e : Expr) (pre post : List Clause) (ps : Params) :
    ((astHash q).length = 8 ∧ (astHash q).data.all isHexLowerChar = true) ∧
    (p1.Perm p2 → (p1.map Prod.fst).Nodup →
      astHash ⟨cl, p1⟩ = astHash ⟨cl, p2⟩) ∧
    astHash ⟨pre ++ .Where (.UnaryOp "NOT" (.UnaryOp "NOT" e)) :: post, ps⟩ =
      astHash ⟨pre ++ .Where e :: post, ps⟩ := by
  refine ⟨simpleHash_format _, ?_, ?_⟩
  · intro hperm hn
    have : normalize ⟨cl, p1⟩ = normalize ⟨cl, p2⟩ := by
      unfold normalize
      rw [sortParamsStable_eq_of_perm hperm hn]
    unfold astHash
    rw [this]
  · have hmap : (pre ++ Clause.Where (.UnaryOp "NOT" (.UnaryOp "NOT" e)) :: post).map
        normalizeClause = (pre ++ Clause.Where e :: post).map normalizeClause := by
      rw [List.map_append, List.map_append, List.map_cons, List.map_cons]
      have : normalizeClause (.Where (.UnaryOp "NOT" (.UnaryOp "NOT" e))) =
          normalizeClause (.Where e) := by
        show Clause.Where (normalizeExpr (.UnaryOp "NOT" (.UnaryOp "NOT" e))) =
          Clause.Where (normalizeExpr e)
        rw [normalizeExpr_not_not]
      rw [this]
    have : normalize ⟨pre ++ Clause.Where (.UnaryOp "NOT" (.UnaryOp "NOT" e)) :: post, ps⟩ =
        normalize ⟨pre ++ Clause.Where e :: post, ps⟩ := by
      unfold normalize normalizeClauses
      rw [hmap]
    unfold astHash
    rw [this]

/-- C8 witness: the amended hash properties applied at concrete
inputs: a two-entry parameter record in both insertion orders, a Where
clause with a doubly negated literal, and the 8-character format at the
C1 example query. -/
theorem astHash_equivalences_witness :
    astHash ⟨[], [("b", .jnum 2), ("a", .jnum 1)]⟩ =
      astHash ⟨[], [("a", .jnum 1), ("b", .jnum 2)]⟩ ∧
    astHash ⟨[.Where (.UnaryOp "NOT" (.UnaryOp "NOT" (jint 1)))], []⟩ =
      astHash ⟨[.Where (jint 1)], []⟩ ∧
    (astHash qC1).length = 8 :=
  ⟨(astHash_format_and_equivalences qC1 [] [("b", .jnum 2), ("a", .jnum 1)]
      [("a", .jnum 1), ("b", .jnum 2)] (jint 1) [] [] []).2.1
      (by decide) (by decide),
   (astHash_format_and_equivalences qC1 [] [("b", .jnum 2), ("a", .jnum 1)]
      [("a", .jnum 1), ("b", .jnum 2)] (jint 1) [] [] []).2.2,
   (astHash_format_and_equivalences qC1 [] [("b", .jnum 2), ("a", .jnum 1)]
      [("a", .jnum 1), ("b", .jnum 2)] (jint 1) [] [] []).1.1⟩

end EffectCypher
